import Mathlib

/-!
Verification of the waygo/bleu package (file src/bleu.go) against its
natural-language specification.

The Go source is shallowly embedded below.  Token sequences are lists of
strings; the float64 arithmetic of the scorer is modelled by exact real
numbers, with the per-order modified precisions (which are quotients of
integer counts) kept in the rationals so that they remain computable.
The Go hash maps keyed by the JSON encoding of an n-gram are modelled by
their lookup functions together with the list of distinct keys
(the JSON encoding of a list of strings is injective, so two n-grams
collide in the map exactly when they are equal as token lists).
Out-of-bounds slice indexing (a Go runtime panic) is modelled by Option:
a function that may panic returns none in the panicking case.
-/

namespace Bleu

/-- Sentence mirrors the Go type: a series of string tokens. -/
abbrev Sentence := List String

/-- Model of the Go standard library function strings.ToLower, applied
tokenwise by computeBleu.  Character case folding is the ASCII mapping of
Char.toLower, matching the behaviour of the Go function on the ASCII
range used throughout the package tests. -/
def toLower (s : String) : String := String.mk (s.data.map Char.toLower)

/-- getNgrams from bleu.go: all contiguous n-grams of the sentence, in
order of their start index.  The Go loop runs i from 0 while
i < len(s)-n+1 (signed arithmetic, so no iterations when n > len(s)+1);
truncated natural subtraction gives the same iteration count. -/
def getNgrams (s : Sentence) (n : ℕ) : List (List String) :=
  (List.range (s.length + 1 - n)).map (fun i => ((s.drop i).take n))

/-- countNgrams from bleu.go: the occurrence-count table of a list of
n-grams.  The Go map from the JSON key of an n-gram to its count is
modelled as the lookup function on n-grams themselves; a key that is
absent reads as 0, exactly as a missing Go map entry does. -/
def countNgrams (ngrams : List (List String)) : List String → ℕ := fun g => ngrams.count g

/-- sum from bleu.go: summing the values of a count table means summing
the counts over the distinct keys of the map, here given explicitly. -/
def sumCounts (keys : List (List String)) (m : List String → ℕ) : ℕ := (keys.map m).sum

/-- The maxCounts table built by modifiedPrecision: for each candidate
n-gram, the running maximum over the references of the per-reference
occurrence count.  The Go loop initialises a key on the first reference
(the !ok branch) and thereafter takes the maximum, which is the fold
below; with no references the map stays empty and every lookup reads 0. -/
def maxRefCounts (references : List Sentence) (n : ℕ) : List String → ℕ := fun g =>
  match references with
  | [] => 0
  | r :: rs => rs.foldl (fun acc ref => max acc (countNgrams (getNgrams ref n) g))
      (countNgrams (getNgrams r n) g)

/-- modifiedPrecision from bleu.go.  Returns 0 when the candidate has no
n-grams of order n (also checking, as the Go code does, that the count
table is empty); otherwise the clipped count sum over the distinct
candidate n-grams, divided by the raw count sum, with the additive
smoothing factor 1 added to numerator and denominator when smoothing is
on.  The Go float64 quotient of integer counts is modelled exactly in ℚ. -/
def modifiedPrecision (candidate : Sentence) (references : List Sentence) (n : ℕ)
    (smoothing : Bool) : ℚ :=
  if getNgrams candidate n = [] then 0
  else if (getNgrams candidate n).dedup = [] then 0
  else ((sumCounts (getNgrams candidate n).dedup
          (fun g => min (countNgrams (getNgrams candidate n) g) (maxRefCounts references n g)) : ℚ)
        + (if smoothing then 1 else 0))
      / ((sumCounts (getNgrams candidate n).dedup (countNgrams (getNgrams candidate n)) : ℚ)
        + (if smoothing then 1 else 0))

/-- Absolute difference abs(l - c) of the Go code, computed in ℤ. -/
def diffTo (c : ℕ) (l : ℕ) : ℕ := ((l : ℤ) - (c : ℤ)).natAbs

/-- One iteration of the reference-selection loop of brevityPenalty:
the state is the pair (minDiffInd, minDiff), initially (0, -1), and an
entry (i, refLen) updates it when minDiff is still -1 or the new
absolute difference is strictly smaller. -/
def bpStep (c : ℕ) (st : ℕ × ℤ) (p : ℕ × ℕ) : ℕ × ℤ :=
  if st.2 = -1 ∨ ((diffTo c p.2 : ℤ) < st.2) then (p.1, (diffTo c p.2 : ℤ)) else st

/-- The reference-selection loop of brevityPenalty, over the indexed
reference lengths. -/
def brevityPenaltyLoop (c : ℕ) (refLens : List ℕ) : ℕ × ℤ :=
  refLens.enum.foldl (bpStep c) (0, -1)

/-- The final formula of brevityPenalty: 1 when the candidate is longer
than the selected reference, exp(1 - r/c) otherwise. -/
noncomputable def bpValue (c r : ℕ) : ℝ :=
  if c > r then 1 else Real.exp (1 - (r : ℝ) / (c : ℝ))

/-- brevityPenalty from bleu.go.  The Go code reads refLens[minDiffInd]
after the loop; with an empty reference list the loop never runs and the
read refLens[0] is out of bounds (a runtime panic), modelled as none. -/
noncomputable def brevityPenalty (candidate : Sentence) (references : List Sentence) :
    Option ℝ :=
  ((references.map List.length).get?
      (brevityPenaltyLoop candidate.length (references.map List.length)).1).map
    (bpValue candidate.length)

/-- The list ps of computeBleu: the modified precision of each n-gram
order 1..len(weights). -/
def precisions (candidate : Sentence) (references : List Sentence) (weights : List ℚ)
    (smoothing : Bool) : List ℚ :=
  (List.range weights.length).map (fun i => modifiedPrecision candidate references (i + 1) smoothing)

/-- The accumulator s of computeBleu: sum of weight * ln(precision) over
the orders whose precision is positive. -/
noncomputable def logSum (weights : List ℚ) (ps : List ℚ) : ℝ :=
  (weights.zip ps).foldl
    (fun acc wp => if 0 < wp.2 then acc + (wp.1 : ℝ) * Real.log ((wp.2 : ℚ) : ℝ) else acc) 0

/-- The overlap counter of computeBleu: how many orders have positive
modified precision. -/
def overlapCount (ps : List ℚ) : ℕ := ps.countP (fun p => decide (0 < p))

/-- computeBleu from bleu.go.  Candidate and references are lower-cased
tokenwise (the Go code mutates them in place; the pure model applies the
same normalisation to the values it goes on to use), the per-order
precisions are combined through the weighted log sum, the zero-overlap
shortcut returns 0 before the brevity penalty is touched, and otherwise
the score is brevityPenalty * exp(s).  The result is none exactly when
the Go code would panic inside brevityPenalty. -/
noncomputable def computeBleu (candidate : Sentence) (references : List Sentence)
    (weights : List ℚ) (smoothing : Bool) : Option ℝ :=
  if overlapCount (precisions (candidate.map toLower) (references.map (List.map toLower))
      weights smoothing) = 0 then some 0
  else (brevityPenalty (candidate.map toLower) (references.map (List.map toLower))).map
    (fun bp => bp * Real.exp (logSum weights
      (precisions (candidate.map toLower) (references.map (List.map toLower)) weights smoothing)))

/-- Compute from bleu.go: the BLEU score without smoothing. -/
noncomputable def Compute (candidate : Sentence) (references : List Sentence)
    (weights : List ℚ) : Option ℝ :=
  computeBleu candidate references weights false

/-- Smooth from bleu.go: the BLEU score with the additive smoothing
factor. -/
noncomputable def Smooth (candidate : Sentence) (references : List Sentence)
    (weights : List ℚ) : Option ℝ :=
  computeBleu candidate references weights true

/-! Helper lemmas shared by several claims. -/

theorem char_toNat_ofNat (n : ℕ) (h : n.isValidChar) : (Char.ofNat n).toNat = n := by
  unfold Char.ofNat
  rw [dif_pos h]
  rfl

theorem char_toLower_eq (c : Char) :
    c.toLower = if c.toNat ≥ 65 ∧ c.toNat ≤ 90 then Char.ofNat (c.toNat + 32) else c := rfl

theorem char_toLower_idem (c : Char) : c.toLower.toLower = c.toLower := by
  rw [char_toLower_eq c]
  by_cases h : c.toNat ≥ 65 ∧ c.toNat ≤ 90
  · rw [if_pos h, char_toLower_eq, char_toNat_ofNat _ (Or.inl (by omega)), if_neg (by omega)]
  · rw [if_neg h, char_toLower_eq, if_neg h]

theorem toLower_idem (s : String) : toLower (toLower s) = toLower s := by
  unfold toLower
  simp only [List.map_map]
  congr 1
  simp [Function.comp_def, char_toLower_idem]

theorem getNgrams_nil (n : ℕ) : getNgrams [] (n + 1) = [] := by
  simp [getNgrams]

theorem getNgrams_length (s : Sentence) (n : ℕ) :
    (getNgrams s n).length = s.length + 1 - n := by
  simp [getNgrams]

theorem getNgrams_ne_nil (s : Sentence) (n : ℕ) (h1 : 1 ≤ n) (h2 : n ≤ s.length) :
    getNgrams s n ≠ [] := by
  intro hcon
  have := getNgrams_length s n
  rw [hcon] at this
  simp at this
  omega

theorem modifiedPrecision_of_no_ngrams (candidate : Sentence) (references : List Sentence)
    (n : ℕ) (smoothing : Bool) (h : getNgrams candidate n = []) :
    modifiedPrecision candidate references n smoothing = 0 := by
  unfold modifiedPrecision
  rw [if_pos h]

theorem maxRefCounts_eq_zero (references : List Sentence) (n : ℕ) (g : List String)
    (h : ∀ r ∈ references, countNgrams (getNgrams r n) g = 0) :
    maxRefCounts references n g = 0 := by
  match references with
  | [] => rfl
  | r :: rs =>
    show rs.foldl (fun acc ref => max acc (countNgrams (getNgrams ref n) g))
      (countNgrams (getNgrams r n) g) = 0
    rw [h r (List.mem_cons_self r rs)]
    have aux : ∀ (l : List Sentence) (a : ℕ),
        (∀ x ∈ l, countNgrams (getNgrams x n) g = 0) →
        l.foldl (fun acc ref => max acc (countNgrams (getNgrams ref n) g)) a = a := by
      intro l
      induction l with
      | nil => intro a _; rfl
      | cons x xs ih =>
        intro a hx
        rw [List.foldl_cons, hx x (List.mem_cons_self x xs), ih (max a 0)
          (fun y hy => hx y (List.mem_cons_of_mem x hy))]
        simp
    exact aux rs 0 (fun y hy => h y (List.mem_cons_of_mem r hy))

theorem modifiedPrecision_of_no_overlap (candidate : Sentence) (references : List Sentence)
    (n : ℕ) (h : ∀ g ∈ getNgrams candidate n, ∀ r ∈ references,
      countNgrams (getNgrams r n) g = 0) :
    modifiedPrecision candidate references n false = 0 := by
  unfold modifiedPrecision
  by_cases hng : getNgrams candidate n = []
  · rw [if_pos hng]
  · rw [if_neg hng, if_neg (by simpa using hng)]
    have hnum : sumCounts (getNgrams candidate n).dedup
        (fun g => min (countNgrams (getNgrams candidate n) g) (maxRefCounts references n g))
        = 0 := by
      unfold sumCounts
      apply List.sum_eq_zero
      intro x hx
      rcases List.mem_map.mp hx with ⟨g, hg, rfl⟩
      rw [maxRefCounts_eq_zero references n g (h g (List.mem_dedup.mp hg))]
      simp
    rw [hnum]
    simp

theorem modifiedPrecision_pos_of_smoothing (candidate : Sentence) (references : List Sentence)
    (n : ℕ) (h : getNgrams candidate n ≠ []) :
    0 < modifiedPrecision candidate references n true := by
  unfold modifiedPrecision
  rw [if_neg h, if_neg (by simpa using h)]
  rw [if_pos rfl]
  apply div_pos <;> positivity

theorem brevityPenalty_nil_refs (candidate : Sentence) :
    brevityPenalty candidate [] = none := by
  unfold brevityPenalty
  rfl

/-! Claim theorems. -/

/-- C6: with a non-empty references list and any weights, both Compute and
Smooth return score 0 on an empty candidate, and no reference-selection
indexing or division by the candidate length happens: the zero-overlap
shortcut fires before the brevity penalty. -/
theorem compute_smooth_empty_candidate (references : List Sentence) (weights : List ℚ)
    (h : references ≠ []) :
    Compute [] references weights = some 0 ∧ Smooth [] references weights = some 0 := by
  have key : ∀ sm : Bool, computeBleu [] references weights sm = some 0 := by
    intro sm
    unfold computeBleu
    rw [if_pos]
    unfold overlapCount
    rw [List.countP_eq_zero]
    intro p hp
    unfold precisions at hp
    rcases List.mem_map.mp hp with ⟨i, _, rfl⟩
    rw [show (([] : Sentence).map toLower) = ([] : Sentence) from rfl,
      modifiedPrecision_of_no_ngrams _ _ _ _ (getNgrams_nil i)]
    simp
  exact ⟨key false, key true⟩

/-- Witness for C6 at a concrete input. -/
theorem compute_smooth_empty_candidate_witness :
    (([["garlic", "mushrooms"]] : List Sentence) ≠ []) ∧
      (Compute [] [["garlic", "mushrooms"]] [1/2, 1/2] = some 0 ∧
        Smooth [] [["garlic", "mushrooms"]] [1/2, 1/2] = some 0) :=
  ⟨by decide, compute_smooth_empty_candidate [["garlic", "mushrooms"]] [1/2, 1/2] (by decide)⟩

/-- C10: with a non-empty candidate, a non-empty weights vector and an
empty references collection, Smooth reaches brevityPenalty (smoothing
makes the order-1 precision positive, so the zero-overlap shortcut does
not fire) and brevityPenalty reads position 0 of the empty
reference-length slice: a runtime panic in Go, none in this model. -/
theorem smooth_empty_references_panics (candidate : Sentence) (weights : List ℚ)
    (hc : candidate ≠ []) (hw : weights ≠ []) :
    Smooth candidate [] weights = none := by
  have hpos : 0 < overlapCount (precisions (candidate.map toLower)
      (([] : List Sentence).map (List.map toLower)) weights true) := by
    unfold overlapCount
    rw [List.countP_pos]
    refine ⟨modifiedPrecision (candidate.map toLower)
      (([] : List Sentence).map (List.map toLower)) (0 + 1) true, ?_, ?_⟩
    · unfold precisions
      exact List.mem_map.mpr ⟨0, List.mem_range.mpr (by
        cases weights with
        | nil => exact absurd rfl hw
        | cons a l => simp), rfl⟩
    · simp only [decide_eq_true_eq]
      apply modifiedPrecision_pos_of_smoothing
      apply getNgrams_ne_nil _ _ le_rfl
      simpa using List.length_pos.mpr hc
  unfold Smooth computeBleu
  rw [if_neg (Nat.pos_iff_ne_zero.mp hpos),
    show (([] : List Sentence).map (List.map toLower)) = ([] : List Sentence) from rfl,
    brevityPenalty_nil_refs, Option.map_none']

/-- Witness for C10 at a concrete input. -/
theorem smooth_empty_references_panics_witness :
    ((["garlic", "mushrooms"] : Sentence) ≠ []) ∧ (([1/2, 1/2] : List ℚ) ≠ []) ∧
      Smooth ["garlic", "mushrooms"] [] [1/2, 1/2] = none :=
  ⟨by decide, by decide,
    smooth_empty_references_panics ["garlic", "mushrooms"] [1/2, 1/2] (by decide) (by decide)⟩

/-- C3: when no candidate n-gram of any requested order occurs in any
reference (after lower-casing), every modified precision is 0, so Compute
returns exactly 0 straight from the overlap check, without touching the
brevity penalty or taking ln(0).  No shape condition on the references is
needed: the result is some 0 even when the references list is empty, for
which the brevity penalty itself would panic. -/
theorem compute_zero_of_no_ngram_overlap (candidate : Sentence) (references : List Sentence)
    (weights : List ℚ)
    (h : ∀ i ∈ List.range weights.length, ∀ g ∈ getNgrams (candidate.map toLower) (i + 1),
      ∀ r ∈ references, countNgrams (getNgrams (r.map toLower) (i + 1)) g = 0) :
    Compute candidate references weights = some 0 := by
  unfold Compute computeBleu
  rw [if_pos]
  unfold overlapCount
  rw [List.countP_eq_zero]
  intro p hp
  unfold precisions at hp
  rcases List.mem_map.mp hp with ⟨i, hi, rfl⟩
  rw [modifiedPrecision_of_no_overlap]
  · simp
  · intro g hg r2 hr2
    rcases List.mem_map.mp hr2 with ⟨r, hr, rfl⟩
    exact h i hi g hg r hr

/-- Witness for C3: the total-mismatch example of the spec. -/
theorem compute_zero_of_no_ngram_overlap_witness :
    (∀ i ∈ List.range ([1/2, 1/2] : List ℚ).length,
      ∀ g ∈ getNgrams ((["x", "y"] : Sentence).map toLower) (i + 1),
      ∀ r ∈ ([[ "garlic", "mushrooms"]] : List Sentence),
        countNgrams (getNgrams (r.map toLower) (i + 1)) g = 0) ∧
    Compute ["x", "y"] [["garlic", "mushrooms"]] [1/2, 1/2] = some 0 :=
  ⟨by decide, compute_zero_of_no_ngram_overlap ["x", "y"] [["garlic", "mushrooms"]] [1/2, 1/2]
    (by decide)⟩

theorem map_toLower_idem (l : Sentence) : (l.map toLower).map toLower = l.map toLower := by
  rw [List.map_map]
  simp [Function.comp_def, toLower_idem]

theorem map_map_toLower_idem (rs : List Sentence) :
    (rs.map (List.map toLower)).map (List.map toLower) = rs.map (List.map toLower) := by
  rw [List.map_map]
  simp only [Function.comp_def, map_toLower_idem]

/-- C7: Compute and Smooth are invariant under tokenwise lower-casing of
the candidate and the references, because computeBleu lower-cases its
inputs before any other step and lower-casing is idempotent. -/
theorem compute_smooth_lowercase_invariant (candidate : Sentence) (references : List Sentence)
    (weights : List ℚ) :
    Compute candidate references weights
        = Compute (candidate.map toLower) (references.map (List.map toLower)) weights ∧
      Smooth candidate references weights
        = Smooth (candidate.map toLower) (references.map (List.map toLower)) weights := by
  have key : ∀ sm : Bool, computeBleu candidate references weights sm
      = computeBleu (candidate.map toLower) (references.map (List.map toLower)) weights sm := by
    intro sm
    unfold computeBleu
    rw [map_toLower_idem, map_map_toLower_idem]
  exact ⟨key false, key true⟩

/-- C1: the exact-match example.  The two n-gram orders 3 and 4 requested
by the four weights exceed the two-token candidate, so their precision is
0 and they are skipped by the positivity filter of the weighted log sum;
the two remaining orders have precision 1; the brevity penalty is 1
because candidate and reference have equal length; the score is exactly
some 1. -/
theorem compute_exact_match :
    Compute ["garlic", "mushrooms"] [["garlic", "mushrooms"]] [1/2, 1/2, 1/2, 1/2] = some 1 ∧
      modifiedPrecision ["garlic", "mushrooms"] [["garlic", "mushrooms"]] 3 false = 0 ∧
      modifiedPrecision ["garlic", "mushrooms"] [["garlic", "mushrooms"]] 4 false = 0 ∧
      brevityPenalty ["garlic", "mushrooms"] [["garlic", "mushrooms"]] = some 1 := by
  have hlc : (["garlic", "mushrooms"] : Sentence).map toLower = ["garlic", "mushrooms"] := by
    decide
  have hlr : ([["garlic", "mushrooms"]] : List Sentence).map (List.map toLower)
      = [["garlic", "mushrooms"]] := by decide
  have hmp1 : modifiedPrecision ["garlic", "mushrooms"] [["garlic", "mushrooms"]] 1 false
      = 1 := by
    unfold modifiedPrecision
    rw [if_neg (by decide), if_neg (by decide),
      show sumCounts (getNgrams ["garlic", "mushrooms"] 1).dedup
        (fun g => min (countNgrams (getNgrams ["garlic", "mushrooms"] 1) g)
          (maxRefCounts [["garlic", "mushrooms"]] 1 g)) = 2 from by decide,
      show sumCounts (getNgrams ["garlic", "mushrooms"] 1).dedup
        (countNgrams (getNgrams ["garlic", "mushrooms"] 1)) = 2 from by decide]
    norm_num
  have hmp2 : modifiedPrecision ["garlic", "mushrooms"] [["garlic", "mushrooms"]] 2 false
      = 1 := by
    unfold modifiedPrecision
    rw [if_neg (by decide), if_neg (by decide),
      show sumCounts (getNgrams ["garlic", "mushrooms"] 2).dedup
        (fun g => min (countNgrams (getNgrams ["garlic", "mushrooms"] 2) g)
          (maxRefCounts [["garlic", "mushrooms"]] 2 g)) = 1 from by decide,
      show sumCounts (getNgrams ["garlic", "mushrooms"] 2).dedup
        (countNgrams (getNgrams ["garlic", "mushrooms"] 2)) = 1 from by decide]
    norm_num
  have hmp3 : modifiedPrecision ["garlic", "mushrooms"] [["garlic", "mushrooms"]] 3 false
      = 0 := modifiedPrecision_of_no_ngrams _ _ _ _ (by decide)
  have hmp4 : modifiedPrecision ["garlic", "mushrooms"] [["garlic", "mushrooms"]] 4 false
      = 0 := modifiedPrecision_of_no_ngrams _ _ _ _ (by decide)
  have hps : precisions ["garlic", "mushrooms"] [["garlic", "mushrooms"]]
      [1/2, 1/2, 1/2, 1/2] false = [1, 1, 0, 0] := by
    unfold precisions
    rw [show (([1/2, 1/2, 1/2, 1/2] : List ℚ)).length = 4 from rfl,
      show List.range 4 = [0, 1, 2, 3] from rfl]
    simp only [List.map_cons, List.map_nil]
    norm_num
    rw [hmp1, hmp2, hmp3, hmp4]
    exact ⟨rfl, rfl, rfl, rfl⟩
  have hbp : brevityPenalty ["garlic", "mushrooms"] [["garlic", "mushrooms"]] = some 1 := by
    unfold brevityPenalty
    rw [show ([["garlic", "mushrooms"]] : List Sentence).map List.length = [2] from rfl,
      show (brevityPenaltyLoop (["garlic", "mushrooms"] : Sentence).length [2]).1 = 0
        from by decide,
      show ([2] : List ℕ).get? 0 = some 2 from rfl, Option.map_some']
    norm_num [bpValue, Real.exp_zero]
  have hscore : Compute ["garlic", "mushrooms"] [["garlic", "mushrooms"]]
      [1/2, 1/2, 1/2, 1/2] = some 1 := by
    unfold Compute computeBleu
    rw [hlc, hlr, hps, hbp]
    rw [if_neg (by decide)]
    have hlog : logSum [1/2, 1/2, 1/2, 1/2] [1, 1, 0, 0] = 0 := by
      unfold logSum
      simp only [List.zip_cons_cons, List.zip_nil_right, List.foldl_cons, List.foldl_nil]
      norm_num
    rw [hlog]
    simp [Real.exp_zero]
  exact ⟨hscore, hmp3, hmp4, hbp⟩

theorem count_listString_eq (g : List String) (l : List (List String)) :
    l.count g = @List.count (List String) instBEqOfDecidableEq g l := by
  induction l with
  | nil => rfl
  | cons x xs ih =>
    rw [List.count_cons, @List.count_cons _ instBEqOfDecidableEq, ih]
    congr 1
    by_cases h : x = g <;> simp [h]

theorem sumCounts_dedup_eq_toFinset_sum (l : List (List String)) (f : List String → ℕ) :
    sumCounts l.dedup f = l.toFinset.sum f := by
  show (l.dedup.map f).sum = l.toFinset.sum f
  rw [← List.sum_toFinset f (List.nodup_dedup l),
    show l.dedup.toFinset = l.toFinset from List.toFinset.ext (fun x => List.mem_dedup)]

theorem sumCounts_dedup_counts (l : List (List String)) :
    sumCounts l.dedup (countNgrams l) = l.length := by
  show (l.dedup.map (fun g => l.count g)).sum = l.length
  have h1 : (l.dedup.map (fun g => l.count g)).sum
      = (l.dedup.map (fun g => @List.count (List String) instBEqOfDecidableEq g l)).sum := by
    congr 1
    exact List.map_congr_left (fun g _ => count_listString_eq g l)
  rw [h1, ← List.sum_toFinset _ (List.nodup_dedup l),
    show l.dedup.toFinset = l.toFinset from List.toFinset.ext (fun x => List.mem_dedup),
    List.sum_toFinset_count_eq_length]

theorem foldl_max_f_eq {α : Type} (f : α → ℕ) (l : List α) (a : ℕ) :
    l.foldl (fun acc x => max acc (f x)) a = max a ((l.map f).foldr max 0) := by
  induction l generalizing a with
  | nil => simp
  | cons x xs ih => rw [List.foldl_cons, ih, List.map_cons, List.foldr_cons, max_assoc]

theorem maxRefCounts_eq_foldr (references : List Sentence) (n : ℕ) (g : List String) :
    maxRefCounts references n g
      = (references.map (fun r => (getNgrams r n).count g)).foldr max 0 := by
  match references with
  | [] => rfl
  | r :: rs =>
    show rs.foldl (fun acc ref => max acc ((getNgrams ref n).count g))
        ((getNgrams r n).count g)
      = ((r :: rs).map (fun r => (getNgrams r n).count g)).foldr max 0
    rw [List.map_cons, List.foldr_cons,
      foldl_max_f_eq (fun r => (getNgrams r n).count g) rs ((getNgrams r n).count g)]

/-- Specification-side restatement of the modified precision formula (C2):
over the set of distinct candidate n-grams, sum the minimum of the
candidate count and the maximum per-reference count (a maximum over the
references, not a sum), add the smoothing factor to numerator and
denominator uniformly, and divide by the total number of candidate
n-grams, which for n at most the candidate length is
candidate length - n + 1. -/
def modifiedPrecisionSpec (candidate : Sentence) (references : List Sentence) (n : ℕ)
    (smoothing : Bool) : ℚ :=
  ((((getNgrams candidate n).toFinset.sum
      (fun g => min ((getNgrams candidate n).count g)
        ((references.map (fun r => (getNgrams r n).count g)).foldr max 0)) : ℕ) : ℚ)
    + (if smoothing then 1 else 0))
  / (((candidate.length - n + 1 : ℕ) : ℚ) + (if smoothing then 1 else 0))

/-- C2: for a candidate with at least n tokens, the modified precision of
order n computed by the code equals the specification formula: clipped
counts use the maximum count over individual references, the denominator
is the number of candidate n-grams, and the +1 smoothing factor is
applied uniformly to the numerator and the denominator. -/
theorem modifiedPrecision_meets_spec (candidate : Sentence) (references : List Sentence)
    (n : ℕ) (smoothing : Bool) (h1 : 1 ≤ n) (h2 : n ≤ candidate.length) :
    modifiedPrecision candidate references n smoothing
      = modifiedPrecisionSpec candidate references n smoothing := by
  have hne : getNgrams candidate n ≠ [] := getNgrams_ne_nil candidate n h1 h2
  unfold modifiedPrecision modifiedPrecisionSpec
  rw [if_neg hne, if_neg (by simpa using hne)]
  have hnum : sumCounts (getNgrams candidate n).dedup
      (fun g => min (countNgrams (getNgrams candidate n) g) (maxRefCounts references n g))
      = (getNgrams candidate n).toFinset.sum
        (fun g => min ((getNgrams candidate n).count g)
          ((references.map (fun r => (getNgrams r n).count g)).foldr max 0)) := by
    rw [sumCounts_dedup_eq_toFinset_sum]
    apply Finset.sum_congr rfl
    intro g _
    show min ((getNgrams candidate n).count g) (maxRefCounts references n g) = _
    rw [maxRefCounts_eq_foldr]
  have hden : sumCounts (getNgrams candidate n).dedup (countNgrams (getNgrams candidate n))
      = candidate.length - n + 1 := by
    rw [sumCounts_dedup_counts, getNgrams_length]
    omega
  rw [hnum, hden]

/-- Witness for C2 at a concrete input with a repeated n-gram and two
references. -/
theorem modifiedPrecision_meets_spec_witness :
    1 ≤ 1 ∧ 1 ≤ (["the", "the", "cat"] : Sentence).length ∧
      modifiedPrecision ["the", "the", "cat"] [["the", "cat"], ["the", "the"]] 1 true
        = modifiedPrecisionSpec ["the", "the", "cat"] [["the", "cat"], ["the", "the"]] 1 true :=
  ⟨le_rfl, by decide,
    modifiedPrecision_meets_spec ["the", "the", "cat"] [["the", "cat"], ["the", "the"]] 1 true
      le_rfl (by decide)⟩

theorem enumFrom_append {α : Type} (l1 l2 : List α) (n : ℕ) :
    (l1 ++ l2).enumFrom n = l1.enumFrom n ++ l2.enumFrom (n + l1.length) := by
  induction l1 generalizing n with
  | nil => simp
  | cons x xs ih =>
    rw [List.cons_append, List.enumFrom_cons, ih (n + 1), List.enumFrom_cons]
    simp only [List.cons_append, List.length_cons]
    rw [show n + 1 + xs.length = n + (xs.length + 1) from by omega]

theorem enum_concat {α : Type} (l : List α) (x : α) :
    (l ++ [x]).enum = l.enum ++ [(l.length, x)] := by
  show (l ++ [x]).enumFrom 0 = l.enumFrom 0 ++ [(l.length, x)]
  rw [enumFrom_append, Nat.zero_add]
  rfl

theorem bpStep_pair (c i2 l : ℕ) (i : ℕ) (d : ℤ) :
    bpStep c (i, d) (i2, l)
      = if d = -1 ∨ ((diffTo c l : ℤ) < d) then (i2, (diffTo c l : ℤ)) else (i, d) := rfl

/-- Invariant of the reference-selection loop: on a non-empty length list
it returns the index and absolute difference of the length closest to c,
where every earlier entry is strictly farther (first occurrence wins
ties) and every entry is at least as far. -/
theorem bpLoop_spec (c : ℕ) (lens : List ℕ) (hne : lens ≠ []) :
    ∃ j r, brevityPenaltyLoop c lens = (j, (diffTo c r : ℤ)) ∧
      lens.get? j = some r ∧
      (∀ l ∈ lens, diffTo c r ≤ diffTo c l) ∧
      (∀ k l, k < j → lens.get? k = some l → diffTo c r < diffTo c l) := by
  induction lens using List.reverseRecOn with
  | nil => exact absurd rfl hne
  | append_singleton xs x ih =>
    have hfold : brevityPenaltyLoop c (xs ++ [x])
        = bpStep c (brevityPenaltyLoop c xs) (xs.length, x) := by
      unfold brevityPenaltyLoop
      rw [enum_concat, List.foldl_append, List.foldl_cons, List.foldl_nil]
    match xs, ih with
    | [], _ =>
      refine ⟨0, x, ?_, rfl, ?_, ?_⟩
      · rw [hfold, show brevityPenaltyLoop c [] = (0, -1) from rfl, bpStep_pair,
          if_pos (Or.inl rfl)]
        rfl
      · intro l hl
        rw [List.nil_append, List.mem_singleton] at hl
        rw [hl]
      · intro k l hk
        omega
    | y :: ys, ih =>
      obtain ⟨j, r, hloop, hget, hmin, hstrict⟩ := ih (by simp)
      have hjlt : j < (y :: ys).length := by
        rcases List.get?_eq_some.mp hget with ⟨h, _⟩
        exact h
      rw [hfold, hloop, bpStep_pair]
      by_cases hlt : diffTo c x < diffTo c r
      · rw [if_pos (Or.inr (by exact_mod_cast hlt))]
        refine ⟨(y :: ys).length, x, rfl, List.get?_concat_length _ _, ?_, ?_⟩
        · intro l hl
          rcases List.mem_append.mp hl with hl1 | hl2
          · exact le_of_lt (lt_of_lt_of_le hlt (hmin l hl1))
          · rw [List.mem_singleton.mp hl2]
        · intro k l hk hgetk
          rw [List.get?_append hk] at hgetk
          exact lt_of_lt_of_le hlt (hmin l (List.get?_mem hgetk))
      · rw [if_neg]
        · refine ⟨j, r, rfl, ?_, ?_, ?_⟩
          · rw [List.get?_append hjlt]
            exact hget
          · intro l hl
            rcases List.mem_append.mp hl with hl1 | hl2
            · exact hmin l hl1
            · rw [List.mem_singleton.mp hl2]
              omega
          · intro k l hk hgetk
            rw [List.get?_append (lt_trans hk hjlt)] at hgetk
            exact hstrict k l hk hgetk
        · push_neg
          constructor
          · have := Int.natCast_nonneg (diffTo c r)
            omega
          · have : ¬ ((diffTo c x : ℤ) < (diffTo c r : ℤ)) := by exact_mod_cast hlt
            omega

/-- C4: with a non-empty candidate and non-empty references, the brevity
penalty selects the reference length closest in absolute difference to
the candidate length, breaking ties by first occurrence in input order,
and returns 1 when the candidate is longer than that length and
exp(1 - r/c) otherwise (including equality of lengths). -/
theorem brevityPenalty_selects_closest (candidate : Sentence) (references : List Sentence)
    (hc : candidate ≠ []) (hr : references ≠ []) :
    ∃ j r, (references.map List.length).get? j = some r ∧
      (∀ l ∈ references.map List.length, diffTo candidate.length r ≤ diffTo candidate.length l) ∧
      (∀ k l, k < j → (references.map List.length).get? k = some l →
        diffTo candidate.length r < diffTo candidate.length l) ∧
      brevityPenalty candidate references
        = some (if candidate.length > r then (1 : ℝ)
            else Real.exp (1 - (r : ℝ) / (candidate.length : ℝ))) := by
  obtain ⟨j, r, hloop, hget, hmin, hstrict⟩ :=
    bpLoop_spec candidate.length (references.map List.length)
      (fun h => hr (List.map_eq_nil_iff.mp h))
  refine ⟨j, r, hget, hmin, hstrict, ?_⟩
  unfold brevityPenalty
  rw [hloop]
  show ((references.map List.length).get? j).map (bpValue candidate.length) = _
  rw [hget]
  rfl

/-- Witness for C4 at a concrete input: candidate length 1, reference
lengths 2 and 1, with the second (closest) reference selected. -/
theorem brevityPenalty_selects_closest_witness :
    ((["a"] : Sentence) ≠ []) ∧ (([["x", "y"], ["z"]] : List Sentence) ≠ []) ∧
      (∃ j r, (([["x", "y"], ["z"]] : List Sentence).map List.length).get? j = some r ∧
        (∀ l ∈ ([["x", "y"], ["z"]] : List Sentence).map List.length,
          diffTo (["a"] : Sentence).length r ≤ diffTo (["a"] : Sentence).length l) ∧
        (∀ k l, k < j → (([["x", "y"], ["z"]] : List Sentence).map List.length).get? k = some l →
          diffTo (["a"] : Sentence).length r < diffTo (["a"] : Sentence).length l) ∧
        brevityPenalty ["a"] [["x", "y"], ["z"]]
          = some (if (["a"] : Sentence).length > r then (1 : ℝ)
              else Real.exp (1 - (r : ℝ) / ((["a"] : Sentence).length : ℝ)))) :=
  ⟨by decide, by decide,
    brevityPenalty_selects_closest ["a"] [["x", "y"], ["z"]] (by decide) (by decide)⟩

/-- C8: relative to the selected reference length r, the brevity penalty
is exactly 1 for a longer candidate, strictly below 1 for a shorter
candidate, and for fixed r the penalty value is strictly decreasing as
the gap r - c grows. -/
theorem brevityPenalty_boundary (candidate : Sentence) (references : List Sentence)
    (hc : candidate ≠ []) (hr : references ≠ []) :
    ∃ r, (references.map List.length).get?
        (brevityPenaltyLoop candidate.length (references.map List.length)).1 = some r ∧
      (r < candidate.length → brevityPenalty candidate references = some 1) ∧
      (candidate.length < r →
        ∃ v, brevityPenalty candidate references = some v ∧ v < 1) ∧
      (∀ c1 c2 : ℕ, 0 < c1 → c1 < c2 → c2 ≤ r → bpValue c1 r < bpValue c2 r) := by
  obtain ⟨j, r, hloop, hget, _, _⟩ :=
    bpLoop_spec candidate.length (references.map List.length)
      (fun h => hr (List.map_eq_nil_iff.mp h))
  have hbp : brevityPenalty candidate references = some (bpValue candidate.length r) := by
    unfold brevityPenalty
    rw [hloop]
    show ((references.map List.length).get? j).map (bpValue candidate.length) = _
    rw [hget]
    rfl
  refine ⟨r, by rw [hloop]; exact hget, ?_, ?_, ?_⟩
  · intro hlonger
    rw [hbp]
    unfold bpValue
    rw [if_pos hlonger]
  · intro hshorter
    have hcpos : 0 < candidate.length := List.length_pos.mpr hc
    refine ⟨bpValue candidate.length r, hbp, ?_⟩
    unfold bpValue
    rw [if_neg (by omega)]
    rw [Real.exp_lt_one_iff]
    have : (1 : ℝ) < (r : ℝ) / (candidate.length : ℝ) := by
      rw [one_lt_div (by exact_mod_cast hcpos)]
      exact_mod_cast hshorter
    linarith
  · intro c1 c2 hc1 hlt hle
    unfold bpValue
    rw [if_neg (by omega), if_neg (by omega), Real.exp_lt_exp]
    have hrpos : (0 : ℝ) < (r : ℝ) := by
      have : 0 < r := by omega
      exact_mod_cast this
    have : (r : ℝ) / (c2 : ℝ) < (r : ℝ) / (c1 : ℝ) := by
      apply div_lt_div_of_pos_left hrpos
      · exact_mod_cast hc1
      · exact_mod_cast hlt
    linarith

/-- Witness for C8 at a concrete input. -/
theorem brevityPenalty_boundary_witness :
    ((["a"] : Sentence) ≠ []) ∧ (([["x", "y"], ["z"]] : List Sentence) ≠ []) ∧
      (∃ r, (([["x", "y"], ["z"]] : List Sentence).map List.length).get?
          (brevityPenaltyLoop (["a"] : Sentence).length
            (([["x", "y"], ["z"]] : List Sentence).map List.length)).1 = some r ∧
        (r < (["a"] : Sentence).length →
          brevityPenalty ["a"] [["x", "y"], ["z"]] = some 1) ∧
        ((["a"] : Sentence).length < r →
          ∃ v, brevityPenalty ["a"] [["x", "y"], ["z"]] = some v ∧ v < 1) ∧
        (∀ c1 c2 : ℕ, 0 < c1 → c1 < c2 → c2 ≤ r → bpValue c1 r < bpValue c2 r)) :=
  ⟨by decide, by decide,
    brevityPenalty_boundary ["a"] [["x", "y"], ["z"]] (by decide) (by decide)⟩

/-- Generalisation of modifiedPrecision in which the enumeration order of
the distinct candidate n-grams (the iteration order of the Go count map,
which Go leaves unspecified) is an explicit parameter; modifiedPrecision
is the special case enumerating in dedup order. -/
def modifiedPrecisionKeys (keys : List (List String)) (candidate : Sentence)
    (references : List Sentence) (n : ℕ) (smoothing : Bool) : ℚ :=
  if getNgrams candidate n = [] then 0
  else if keys = [] then 0
  else ((sumCounts keys
          (fun g => min (countNgrams (getNgrams candidate n) g) (maxRefCounts references n g)) : ℚ)
        + (if smoothing then 1 else 0))
      / ((sumCounts keys (countNgrams (getNgrams candidate n)) : ℚ)
        + (if smoothing then 1 else 0))

/-- computeBleu with every count-map iteration order given explicitly,
one key enumeration per n-gram order. -/
noncomputable def computeBleuKeys (keyOrder : ℕ → List (List String)) (candidate : Sentence)
    (references : List Sentence) (weights : List ℚ) (smoothing : Bool) : Option ℝ :=
  if overlapCount ((List.range weights.length).map (fun i =>
      modifiedPrecisionKeys (keyOrder (i + 1)) (candidate.map toLower)
        (references.map (List.map toLower)) (i + 1) smoothing)) = 0 then some 0
  else (brevityPenalty (candidate.map toLower) (references.map (List.map toLower))).map
    (fun bp => bp * Real.exp (logSum weights ((List.range weights.length).map (fun i =>
      modifiedPrecisionKeys (keyOrder (i + 1)) (candidate.map toLower)
        (references.map (List.map toLower)) (i + 1) smoothing))))

theorem modifiedPrecisionKeys_perm (keys : List (List String)) (candidate : Sentence)
    (references : List Sentence) (n : ℕ) (smoothing : Bool)
    (h : keys.Perm ((getNgrams candidate n).dedup)) :
    modifiedPrecisionKeys keys candidate references n smoothing
      = modifiedPrecision candidate references n smoothing := by
  unfold modifiedPrecisionKeys modifiedPrecision
  by_cases hng : getNgrams candidate n = []
  · rw [if_pos hng, if_pos hng]
  · rw [if_neg hng, if_neg hng]
    have hsum : ∀ f : List String → ℕ, sumCounts keys f
        = sumCounts (getNgrams candidate n).dedup f :=
      fun f => List.Perm.sum_eq (List.Perm.map f h)
    by_cases hkey : keys = []
    · rw [if_pos hkey, if_pos]
      rw [hkey] at h
      exact (List.Perm.nil_eq h).symm
    · have hded : (getNgrams candidate n).dedup ≠ [] := by
        intro hd
        rw [hd] at h
        exact hkey (List.Perm.eq_nil h)
      rw [if_neg hkey, if_neg hded, hsum, hsum]

/-- C9: the scorer is deterministic and independent of hash-map iteration
order: enumerating the distinct n-grams of each order in any order that
is a permutation of the canonical one (as any iteration of the Go count
map is) produces exactly the same score, because the clipped and raw
totals are integer sums, which are invariant under permutation of their
summands.  This holds for Compute and Smooth alike (both smoothing
flags). -/
theorem compute_independent_of_map_order (candidate : Sentence) (references : List Sentence)
    (weights : List ℚ) (smoothing : Bool) (keyOrder : ℕ → List (List String))
    (h : ∀ n, (keyOrder n).Perm ((getNgrams (candidate.map toLower) n).dedup)) :
    computeBleuKeys keyOrder candidate references weights smoothing
      = computeBleu candidate references weights smoothing := by
  have hps : (List.range weights.length).map (fun i =>
      modifiedPrecisionKeys (keyOrder (i + 1)) (candidate.map toLower)
        (references.map (List.map toLower)) (i + 1) smoothing)
      = precisions (candidate.map toLower) (references.map (List.map toLower))
          weights smoothing := by
    unfold precisions
    apply List.map_congr_left
    intro i _
    exact modifiedPrecisionKeys_perm _ _ _ _ _ (h (i + 1))
  unfold computeBleuKeys computeBleu
  rw [hps]

/-- Witness for C9: a reversed enumeration order of every count map
yields the same score on a concrete input. -/
theorem compute_independent_of_map_order_witness :
    computeBleuKeys
        (fun n => ((getNgrams ((["b", "a"] : Sentence).map toLower) n).dedup).reverse)
        ["b", "a"] [["a", "b"], ["b"]] [1/2, 1/2] false
      = computeBleu ["b", "a"] [["a", "b"], ["b"]] [1/2, 1/2] false :=
  compute_independent_of_map_order ["b", "a"] [["a", "b"], ["b"]] [1/2, 1/2] false
    (fun n => ((getNgrams ((["b", "a"] : Sentence).map toLower) n).dedup).reverse)
    (fun n => List.reverse_perm _)

/-! Evaluation of the artichokes example of the spec (claim C5).
The candidate is artichokes with the butter, the single reference is
hearts of artichoke in butter sauce, the weights are [1/2, 1/2].
With smoothing the order precisions are (1+1)/(4+1) = 2/5 and
(0+1)/(3+1) = 1/4; without smoothing they are 1/4 and 0. -/

theorem artichokes_mp1_smooth :
    modifiedPrecision ["artichokes", "with", "the", "butter"]
      [["hearts", "of", "artichoke", "in", "butter", "sauce"]] 1 true = 2/5 := by
  unfold modifiedPrecision
  rw [if_neg (by decide), if_neg (by decide),
    show sumCounts (getNgrams ["artichokes", "with", "the", "butter"] 1).dedup
      (fun g => min (countNgrams (getNgrams ["artichokes", "with", "the", "butter"] 1) g)
        (maxRefCounts [["hearts", "of", "artichoke", "in", "butter", "sauce"]] 1 g)) = 1
      from by decide,
    show sumCounts (getNgrams ["artichokes", "with", "the", "butter"] 1).dedup
      (countNgrams (getNgrams ["artichokes", "with", "the", "butter"] 1)) = 4 from by decide]
  norm_num

theorem artichokes_mp2_smooth :
    modifiedPrecision ["artichokes", "with", "the", "butter"]
      [["hearts", "of", "artichoke", "in", "butter", "sauce"]] 2 true = 1/4 := by
  unfold modifiedPrecision
  rw [if_neg (by decide), if_neg (by decide),
    show sumCounts (getNgrams ["artichokes", "with", "the", "butter"] 2).dedup
      (fun g => min (countNgrams (getNgrams ["artichokes", "with", "the", "butter"] 2) g)
        (maxRefCounts [["hearts", "of", "artichoke", "in", "butter", "sauce"]] 2 g)) = 0
      from by decide,
    show sumCounts (getNgrams ["artichokes", "with", "the", "butter"] 2).dedup
      (countNgrams (getNgrams ["artichokes", "with", "the", "butter"] 2)) = 3 from by decide]
  norm_num

theorem artichokes_mp1_plain :
    modifiedPrecision ["artichokes", "with", "the", "butter"]
      [["hearts", "of", "artichoke", "in", "butter", "sauce"]] 1 false = 1/4 := by
  unfold modifiedPrecision
  rw [if_neg (by decide), if_neg (by decide),
    show sumCounts (getNgrams ["artichokes", "with", "the", "butter"] 1).dedup
      (fun g => min (countNgrams (getNgrams ["artichokes", "with", "the", "butter"] 1) g)
        (maxRefCounts [["hearts", "of", "artichoke", "in", "butter", "sauce"]] 1 g)) = 1
      from by decide,
    show sumCounts (getNgrams ["artichokes", "with", "the", "butter"] 1).dedup
      (countNgrams (getNgrams ["artichokes", "with", "the", "butter"] 1)) = 4 from by decide]
  norm_num

theorem artichokes_mp2_plain :
    modifiedPrecision ["artichokes", "with", "the", "butter"]
      [["hearts", "of", "artichoke", "in", "butter", "sauce"]] 2 false = 0 := by
  unfold modifiedPrecision
  rw [if_neg (by decide), if_neg (by decide),
    show sumCounts (getNgrams ["artichokes", "with", "the", "butter"] 2).dedup
      (fun g => min (countNgrams (getNgrams ["artichokes", "with", "the", "butter"] 2) g)
        (maxRefCounts [["hearts", "of", "artichoke", "in", "butter", "sauce"]] 2 g)) = 0
      from by decide,
    show sumCounts (getNgrams ["artichokes", "with", "the", "butter"] 2).dedup
      (countNgrams (getNgrams ["artichokes", "with", "the", "butter"] 2)) = 3 from by decide]
  norm_num

theorem artichokes_bpValue : bpValue 4 6 = Real.exp (-(1/2)) := by
  unfold bpValue
  rw [if_neg (by norm_num)]
  congr 1
  norm_num

theorem artichokes_bp :
    brevityPenalty ["artichokes", "with", "the", "butter"]
      [["hearts", "of", "artichoke", "in", "butter", "sauce"]] = some (Real.exp (-(1/2))) := by
  unfold brevityPenalty
  rw [show (([["hearts", "of", "artichoke", "in", "butter", "sauce"]] : List Sentence).map
      List.length) = [6] from rfl,
    show (brevityPenaltyLoop (["artichokes", "with", "the", "butter"] : Sentence).length [6]).1
      = 0 from by decide,
    show ([6] : List ℕ).get? 0 = some 6 from rfl, Option.map_some',
    show ((["artichokes", "with", "the", "butter"] : Sentence)).length = 4 from rfl,
    artichokes_bpValue]

theorem artichokes_smooth_value :
    Smooth ["artichokes", "with", "the", "butter"]
        [["hearts", "of", "artichoke", "in", "butter", "sauce"]] [1/2, 1/2]
      = some (Real.exp (-(1/2))
          * Real.exp ((1/2) * Real.log (2/5) + (1/2) * Real.log (1/4))) := by
  have hlc : (["artichokes", "with", "the", "butter"] : Sentence).map toLower
      = ["artichokes", "with", "the", "butter"] := by decide
  have hlr : ([["hearts", "of", "artichoke", "in", "butter", "sauce"]] : List Sentence).map
      (List.map toLower) = [["hearts", "of", "artichoke", "in", "butter", "sauce"]] := by decide
  have hps : precisions ["artichokes", "with", "the", "butter"]
      [["hearts", "of", "artichoke", "in", "butter", "sauce"]] [1/2, 1/2] true
      = [2/5, 1/4] := by
    unfold precisions
    rw [show (([1/2, 1/2] : List ℚ)).length = 2 from rfl,
      show List.range 2 = [0, 1] from rfl]
    simp only [List.map_cons, List.map_nil]
    norm_num
    rw [artichokes_mp1_smooth, artichokes_mp2_smooth]
    exact ⟨rfl, rfl⟩
  have hov : overlapCount [2/5, 1/4] = 2 := by
    norm_num [overlapCount, List.countP_cons, List.countP_nil]
  have hls : logSum [1/2, 1/2] [2/5, 1/4]
      = 0 + (1/2 : ℚ) * Real.log ((2/5 : ℚ) : ℝ) + (1/2 : ℚ) * Real.log ((1/4 : ℚ) : ℝ) := by
    unfold logSum
    simp only [List.zip_cons_cons, List.zip_nil_right, List.foldl_cons, List.foldl_nil]
    rw [if_pos (by norm_num : (0 : ℚ) < 2/5), if_pos (by norm_num : (0 : ℚ) < 1/4)]
  unfold Smooth computeBleu
  rw [hlc, hlr, hps, hov, if_neg (by norm_num), artichokes_bp, Option.map_some', hls]
  congr 1
  congr 1
  push_cast
  ring

theorem artichokes_compute_value :
    Compute ["artichokes", "with", "the", "butter"]
        [["hearts", "of", "artichoke", "in", "butter", "sauce"]] [1/2, 1/2]
      = some (Real.exp (-(1/2)) * Real.exp ((1/2) * Real.log (1/4))) := by
  have hlc : (["artichokes", "with", "the", "butter"] : Sentence).map toLower
      = ["artichokes", "with", "the", "butter"] := by decide
  have hlr : ([["hearts", "of", "artichoke", "in", "butter", "sauce"]] : List Sentence).map
      (List.map toLower) = [["hearts", "of", "artichoke", "in", "butter", "sauce"]] := by decide
  have hps : precisions ["artichokes", "with", "the", "butter"]
      [["hearts", "of", "artichoke", "in", "butter", "sauce"]] [1/2, 1/2] false
      = [1/4, 0] := by
    unfold precisions
    rw [show (([1/2, 1/2] : List ℚ)).length = 2 from rfl,
      show List.range 2 = [0, 1] from rfl]
    simp only [List.map_cons, List.map_nil]
    norm_num
    rw [artichokes_mp1_plain, artichokes_mp2_plain]
    exact ⟨rfl, rfl⟩
  have hov : overlapCount [1/4, 0] = 1 := by
    norm_num [overlapCount, List.countP_cons, List.countP_nil]
  have hls : logSum [1/2, 1/2] [1/4, 0]
      = 0 + (1/2 : ℚ) * Real.log ((1/4 : ℚ) : ℝ) := by
    unfold logSum
    simp only [List.zip_cons_cons, List.zip_nil_right, List.foldl_cons, List.foldl_nil]
    rw [if_pos (by norm_num : (0 : ℚ) < 1/4), if_neg (by norm_num : ¬ ((0 : ℚ) < 0))]
  unfold Compute computeBleu
  rw [hlc, hlr, hps, hov, if_neg (by norm_num), artichokes_bp, Option.map_some', hls]
  congr 1
  congr 1
  push_cast
  ring

theorem artichokes_smooth_sq :
    (Real.exp (-(1/2) : ℝ) * Real.exp ((1/2) * Real.log (2/5) + (1/2) * Real.log (1/4))) ^ 2
      = (1/10) / Real.exp 1 := by
  rw [mul_pow, pow_two, pow_two, ← Real.exp_add, ← Real.exp_add,
    show (-(1/2 : ℝ)) + (-(1/2)) = -1 from by norm_num,
    show ((1/2 : ℝ) * Real.log (2/5) + (1/2) * Real.log (1/4))
        + ((1/2) * Real.log (2/5) + (1/2) * Real.log (1/4))
      = Real.log (2/5) + Real.log (1/4) from by ring,
    Real.exp_add, Real.exp_log (by norm_num : (0:ℝ) < 2/5),
    Real.exp_log (by norm_num : (0:ℝ) < 1/4), Real.exp_neg, div_eq_mul_inv]
  ring

theorem artichokes_compute_sq :
    (Real.exp (-(1/2) : ℝ) * Real.exp ((1/2) * Real.log (1/4))) ^ 2
      = (1/4) / Real.exp 1 := by
  rw [mul_pow, pow_two, pow_two, ← Real.exp_add, ← Real.exp_add,
    show (-(1/2 : ℝ)) + (-(1/2)) = -1 from by norm_num,
    show ((1/2 : ℝ) * Real.log (1/4)) + ((1/2) * Real.log (1/4))
      = Real.log (1/4) from by ring,
    Real.exp_log (by norm_num : (0:ℝ) < 1/4), Real.exp_neg, div_eq_mul_inv]
  ring

theorem artichokes_smooth_bounds :
    (0.1908 : ℝ) < Real.exp (-(1/2)) * Real.exp ((1/2) * Real.log (2/5) + (1/2) * Real.log (1/4))
      ∧ Real.exp (-(1/2)) * Real.exp ((1/2) * Real.log (2/5) + (1/2) * Real.log (1/4))
        < (0.1928 : ℝ) := by
  have hpos : (0:ℝ) < Real.exp (-(1/2))
      * Real.exp ((1/2) * Real.log (2/5) + (1/2) * Real.log (1/4)) :=
    mul_pos (Real.exp_pos _) (Real.exp_pos _)
  have he1 := Real.exp_one_gt_d9
  have he2 := Real.exp_one_lt_d9
  have hepos := Real.exp_pos 1
  constructor
  · apply lt_of_pow_lt_pow_left₀ 2 (le_of_lt hpos)
    rw [artichokes_smooth_sq, lt_div_iff hepos]
    nlinarith
  · apply lt_of_pow_lt_pow_left₀ 2 (by norm_num : (0:ℝ) ≤ 0.1928)
    rw [artichokes_smooth_sq, div_lt_iff hepos]
    nlinarith

theorem artichokes_compute_bounds :
    (0.3023 : ℝ) < Real.exp (-(1/2)) * Real.exp ((1/2) * Real.log (1/4))
      ∧ Real.exp (-(1/2)) * Real.exp ((1/2) * Real.log (1/4)) < (0.3043 : ℝ) := by
  have hpos : (0:ℝ) < Real.exp (-(1/2)) * Real.exp ((1/2) * Real.log (1/4)) :=
    mul_pos (Real.exp_pos _) (Real.exp_pos _)
  have he1 := Real.exp_one_gt_d9
  have he2 := Real.exp_one_lt_d9
  have hepos := Real.exp_pos 1
  constructor
  · apply lt_of_pow_lt_pow_left₀ 2 (le_of_lt hpos)
    rw [artichokes_compute_sq, lt_div_iff hepos]
    nlinarith
  · apply lt_of_pow_lt_pow_left₀ 2 (by norm_num : (0:ℝ) ≤ 0.3043)
    rw [artichokes_compute_sq, div_lt_iff hepos]
    nlinarith

/-- C5 counterexample: the claim says Smooth on the artichokes example
returns approximately 0.3033, but the value the code returns is below
0.3033 - 0.1, so the claim fails under any reasonable reading of
approximately.  (The repository test named for Smooth actually invokes
Compute, which is where the number 0.3033 comes from.) -/
theorem smooth_artichokes_not_approx :
    (Smooth ["artichokes", "with", "the", "butter"]
        [["hearts", "of", "artichoke", "in", "butter", "sauce"]] [1/2, 1/2]).isSome = true ∧
      (Smooth ["artichokes", "with", "the", "butter"]
        [["hearts", "of", "artichoke", "in", "butter", "sauce"]] [1/2, 1/2]).getD 0
        < (0.3033 - 0.1 : ℝ) := by
  rw [artichokes_smooth_value]
  refine ⟨rfl, ?_⟩
  rw [Option.getD_some]
  have h := artichokes_smooth_bounds.2
  linarith [h]

/-- C5 amended: on the artichokes example, Smooth returns approximately
0.1918 (provably within (0.1908, 0.1928)), while it is Compute that
returns approximately 0.3033 (provably within (0.3023, 0.3043)),
matching the repository test that produced the 0.3033 figure by calling
Compute. -/
theorem smooth_artichokes_amended_value :
    ((0.1908 : ℝ) < (Smooth ["artichokes", "with", "the", "butter"]
        [["hearts", "of", "artichoke", "in", "butter", "sauce"]] [1/2, 1/2]).getD 0 ∧
      (Smooth ["artichokes", "with", "the", "butter"]
        [["hearts", "of", "artichoke", "in", "butter", "sauce"]] [1/2, 1/2]).getD 0
        < (0.1928 : ℝ)) ∧
    ((0.3023 : ℝ) < (Compute ["artichokes", "with", "the", "butter"]
        [["hearts", "of", "artichoke", "in", "butter", "sauce"]] [1/2, 1/2]).getD 0 ∧
      (Compute ["artichokes", "with", "the", "butter"]
        [["hearts", "of", "artichoke", "in", "butter", "sauce"]] [1/2, 1/2]).getD 0
        < (0.3043 : ℝ)) ∧
    (Smooth ["artichokes", "with", "the", "butter"]
        [["hearts", "of", "artichoke", "in", "butter", "sauce"]] [1/2, 1/2]).isSome = true ∧
    (Compute ["artichokes", "with", "the", "butter"]
        [["hearts", "of", "artichoke", "in", "butter", "sauce"]] [1/2, 1/2]).isSome = true := by
  rw [artichokes_smooth_value, artichokes_compute_value]
  simp only [Option.getD_some, Option.isSome_some]
  exact ⟨⟨artichokes_smooth_bounds.1, artichokes_smooth_bounds.2⟩,
    ⟨artichokes_compute_bounds.1, artichokes_compute_bounds.2⟩, trivial, trivial⟩

end Bleu
